import Mathlib

/-!
Verification of the sprite-sheet separation utilities
(`sprite_separator.py`, `slice_sprite_sheet.py`, `sprite_slicer.py`).

Pixels are stored in BGR channel order, exactly as OpenCV hands them to
the Python code, so a `Color` is the triple `(b, g, r)` of channel
intensities.  Images are modelled as a height, a width and a total pixel
function.
-/

/-- A pixel color in BGR storage order: `(b, g, r)`. -/
abbrev Color := Nat × Nat × Nat

/-- An image buffer: height, width and a pixel access function. -/
structure Img where
  h : Nat
  w : Nat
  pix : Nat → Nat → Color

/-- Lexicographic order on colors in storage (BGR) order; this is the
order `np.unique(..., axis=0)` sorts rows in. -/
def colorLe (a b : Color) : Prop :=
  a.1 < b.1 ∨ (a.1 = b.1 ∧ (a.2.1 < b.2.1 ∨ (a.2.1 = b.2.1 ∧ a.2.2 ≤ b.2.2)))

instance : DecidableRel colorLe := fun a b => by
  unfold colorLe; exact inferInstance

theorem colorLe_refl (a : Color) : colorLe a a := by
  unfold colorLe; omega

theorem colorLe_trans {a b c : Color} (h1 : colorLe a b) (h2 : colorLe b c) :
    colorLe a c := by
  unfold colorLe at *; omega

theorem colorLe_total (a b : Color) : colorLe a b ∨ colorLe b a := by
  unfold colorLe; omega

instance : IsTotal Color colorLe := ⟨colorLe_total⟩

instance : IsTrans Color colorLe := ⟨fun _ _ _ => colorLe_trans⟩

/-! ## The movement classifier (`classify_movement_by_color`) -/

/-- The `color_mappings` table of `sprite_separator.py`, in declaration
order.  Each entry is `(label, min_color, max_color)` with the bounds in
BGR order, exactly the lists in the source. -/
def color_mappings : List (String × Color × Color) :=
  [("idle",    (100, 0, 0),     (255, 100, 100)),
   ("walking", (0, 0, 100),     (100, 100, 255)),
   ("jump",    (100, 0, 100),   (255, 100, 255)),
   ("get_hit", (0, 100, 100),   (100, 255, 255)),
   ("die",     (0, 100, 0),     (100, 255, 100)),
   ("attack",  (0, 200, 200),   (100, 255, 255))]

/-- Membership of a color in a closed axis-aligned box
`min_color[i] <= channel_i <= max_color[i]`, the condition of the `for`
loop in `classify_movement_by_color`. -/
def inRange (c lo hi : Color) : Prop :=
  lo.1 ≤ c.1 ∧ c.1 ≤ hi.1 ∧
  lo.2.1 ≤ c.2.1 ∧ c.2.1 ≤ hi.2.1 ∧
  lo.2.2 ≤ c.2.2 ∧ c.2.2 ≤ hi.2.2

instance (c lo hi : Color) : Decidable (inRange c lo hi) := by
  unfold inRange; exact inferInstance

/-- The `for movement, (min_color, max_color) in color_mappings.items()`
loop: return the first label whose box contains the color. -/
def findMovement : List (String × Color × Color) → Color → Option String
  | [], _ => none
  | (name, lo, hi) :: rest, c =>
    if inRange c lo hi then some name else findMovement rest c

/-- `classify_movement_by_color` of `sprite_separator.py`: first the box
table in declaration order, then the dominant-channel `if`/`elif` chain,
finally `"unknown"`. -/
def classify_movement_by_color (c : Color) : String :=
  match findMovement color_mappings c with
  | some movement => movement
  | none =>
    let b := c.1
    let g := c.2.1
    let r := c.2.2
    if b > g ∧ b > r then "idle"
    else if r > g ∧ r > b then "walking"
    else if r > 150 ∧ b > 150 ∧ g < 100 then "jump"
    else if r > 150 ∧ g > 150 ∧ b < 100 then "attack"
    else if r > 150 ∧ g > 100 ∧ b < 150 then "get_hit"
    else if g > r ∧ g > b then "die"
    else "unknown"

/-! ### Spec-side restatement of the classifier as two tiers -/

/-- Spec tier 1: the first category, in declared order, whose closed
axis-aligned box contains the color. -/
def tier1 (c : Color) : Option String :=
  (color_mappings.find? fun m => decide (inRange c m.2.1 m.2.2)).map (fun m => m.1)

/-- Spec tier 2: the dominant-channel fallback patterns in their fixed
order, first match winning. -/
def tier2 (c : Color) : Option String :=
  let b := c.1
  let g := c.2.1
  let r := c.2.2
  if b > g ∧ b > r then some "idle"
  else if r > g ∧ r > b then some "walking"
  else if r > 150 ∧ b > 150 ∧ g < 100 then some "jump"
  else if r > 150 ∧ g > 150 ∧ b < 100 then some "attack"
  else if r > 150 ∧ g > 100 ∧ b < 150 then some "get_hit"
  else if g > r ∧ g > b then some "die"
  else none

/-- Spec-side classifier: tier 1, then tier 2, then `"unknown"`. -/
def classifySpec (c : Color) : String :=
  match tier1 c with
  | some l => l
  | none => (tier2 c).getD "unknown"

/-- The closed label set of the classifier. -/
def movement_labels : List String :=
  ["idle", "walking", "jump", "get_hit", "die", "attack"]

theorem findMovement_eq_find? (l : List (String × Color × Color)) (c : Color) :
    findMovement l c =
      (l.find? fun m => decide (inRange c m.2.1 m.2.2)).map (fun m => m.1) := by
  induction l with
  | nil => rfl
  | cons hd tl ih =>
    obtain ⟨name, lo, hi⟩ := hd
    by_cases h : inRange c lo hi
    · simp [findMovement, List.find?, h]
    · simp [findMovement, List.find?, h, ih]

/-- C2: for every input color, `classify_movement_by_color` first tests
the per-category closed boxes in their declared order and returns the
first match; only if no box matches does it evaluate the
dominant-channel fallback patterns in order; if neither tier matches it
returns `"unknown"`. -/
theorem classify_movement_two_tiers (c : Color) :
    classify_movement_by_color c = classifySpec c := by
  unfold classify_movement_by_color classifySpec tier1
  rw [← findMovement_eq_find?]
  cases findMovement color_mappings c with
  | some l => rfl
  | none => unfold tier2; dsimp only; split_ifs <;> rfl

/-- C3: every input color is mapped to exactly one label from the fixed
category set together with `"unknown"`; the classifier is total. -/
theorem classify_movement_total (c : Color) :
    classify_movement_by_color c ∈ movement_labels ++ ["unknown"] := by
  obtain ⟨b, g, r⟩ := c
  simp only [classify_movement_by_color, color_mappings, findMovement]
  split_ifs <;> simp [movement_labels]

/-- C8: the color `(128,128,128)` is classified `"unknown"`, and more
generally any color with all channels equal that lies in none of the
configured boxes is classified `"unknown"` (no fallback pattern can
match when no channel is strictly largest). -/
theorem gray_unclassified_unknown :
    classify_movement_by_color (128, 128, 128) = "unknown" ∧
    ∀ v : Nat, (∀ m ∈ color_mappings, ¬ inRange (v, v, v) m.2.1 m.2.2) →
      classify_movement_by_color (v, v, v) = "unknown" := by
  refine ⟨by decide, fun v hv => ?_⟩
  have h1 := hv ("idle", (100, 0, 0), (255, 100, 100)) (by simp [color_mappings])
  have h2 := hv ("walking", (0, 0, 100), (100, 100, 255)) (by simp [color_mappings])
  have h3 := hv ("jump", (100, 0, 100), (255, 100, 255)) (by simp [color_mappings])
  have h4 := hv ("get_hit", (0, 100, 100), (100, 255, 255)) (by simp [color_mappings])
  have h5 := hv ("die", (0, 100, 0), (100, 255, 100)) (by simp [color_mappings])
  have h6 := hv ("attack", (0, 200, 200), (100, 255, 255)) (by simp [color_mappings])
  simp only [classify_movement_by_color, color_mappings, findMovement,
    if_neg h1, if_neg h2, if_neg h3, if_neg h4, if_neg h5, if_neg h6]
  split_ifs <;> first | rfl | omega

/-- Witness for C8's theorem at `v = 200`. -/
theorem gray_unclassified_unknown_witness :
    (∀ m ∈ color_mappings, ¬ inRange (200, 200, 200) m.2.1 m.2.2) ∧
    classify_movement_by_color (200, 200, 200) = "unknown" :=
  ⟨by decide, gray_unclassified_unknown.2 200 (by decide)⟩

/-- C9: a color that reaches the dominant-channel fallback is labelled
`"jump"` exactly when its red and blue channels are equal, both above
150, with green below 100; whenever red and blue differ the blue- or
red-dominant checks fire first, so the purple pattern is unreachable. -/
theorem fallback_jump_iff (c : Color)
    (h : findMovement color_mappings c = none) :
    classify_movement_by_color c = "jump" ↔
      c.2.2 = c.1 ∧ 150 < c.2.2 ∧ c.2.1 < 100 := by
  obtain ⟨b, g, r⟩ := c
  simp only [classify_movement_by_color, h]
  split_ifs <;> simp_all <;> omega

/-- Witness for C9's theorem at the color `(160,120,0)`. -/
theorem fallback_jump_iff_witness :
    findMovement color_mappings (160, 120, 0) = none ∧
    (classify_movement_by_color (160, 120, 0) = "jump" ↔
      (0 : Nat) = 160 ∧ 150 < (0 : Nat) ∧ (120 : Nat) < 100) :=
  ⟨by decide, fallback_jump_iff (160, 120, 0) (by decide)⟩

/-! ## The background color sampler (`get_dominant_background_color`) -/

/-- The border pixels of a cell in the order the source collects them:
top row, bottom row, left column, right column (corner pixels occur in
two of these edges). -/
def edge_pixels (img : Img) : List Color :=
  ((List.range img.w).map fun x => img.pix 0 x) ++
  ((List.range img.w).map fun x => img.pix (img.h - 1) x) ++
  ((List.range img.h).map fun y => img.pix y 0) ++
  ((List.range img.h).map fun y => img.pix y (img.w - 1))

/-- `np.argmax` over the counts of a candidate list: the fold keeps the
earliest candidate attaining the maximal count. -/
def argmaxCount (eps : List Color) (u : Color) (us : List Color) : Color :=
  us.foldl (fun best c => if eps.count best < eps.count c then c else best) u

/-- `get_dominant_background_color` of `sprite_separator.py`.
`np.unique(..., axis=0, return_counts=True)` yields the distinct border
colors sorted lexicographically together with their frequencies, and
`np.argmax(counts)` picks the first index of the maximal count, hence
the lexicographically smallest color of maximal frequency. -/
def get_dominant_background_color (img : Img) : Color :=
  match List.insertionSort colorLe (edge_pixels img).dedup with
  | [] => (0, 0, 0)
  | u :: us => argmaxCount (edge_pixels img) u us

/-- The sampler as the spec words it: the first color in border scan
order (top edge, bottom edge, left column, right column) whose
frequency among the border pixels is maximal. -/
def specScanSampler (img : Img) : Option Color :=
  (edge_pixels img).find? fun c =>
    (edge_pixels img).all fun d =>
      (edge_pixels img).count d ≤ (edge_pixels img).count c


theorem argmaxCount_mem (eps : List Color) (u : Color) (us : List Color) :
    argmaxCount eps u us ∈ u :: us := by
  induction us generalizing u with
  | nil => simp [argmaxCount]
  | cons z zs ih =>
    have harg : argmaxCount eps u (z :: zs) =
        argmaxCount eps (if eps.count u < eps.count z then z else u) zs := rfl
    rw [harg]
    by_cases hcmp : eps.count u < eps.count z
    · rw [if_pos hcmp]
      rcases List.mem_cons.mp (ih z) with h | h
      · rw [h]; simp
      · simp [h]
    · rw [if_neg hcmp]
      rcases List.mem_cons.mp (ih u) with h | h
      · rw [h]; simp
      · simp [h]

theorem argmaxCount_max (eps : List Color) (u : Color) (us : List Color) :
    ∀ c ∈ u :: us, eps.count c ≤ eps.count (argmaxCount eps u us) := by
  induction us generalizing u with
  | nil => simp [argmaxCount]
  | cons z zs ih =>
    intro c hc
    have harg : argmaxCount eps u (z :: zs) =
        argmaxCount eps (if eps.count u < eps.count z then z else u) zs := rfl
    rw [harg]
    by_cases hcmp : eps.count u < eps.count z
    · rw [if_pos hcmp]
      have hhd := ih z z (List.mem_cons_self _ _)
      rcases List.mem_cons.mp hc with h1 | h1
      · subst h1; omega
      · rcases List.mem_cons.mp h1 with h2 | h2
        · subst h2; exact hhd
        · exact ih z c (List.mem_cons_of_mem _ h2)
    · rw [if_neg hcmp]
      have hhd := ih u u (List.mem_cons_self _ _)
      rcases List.mem_cons.mp hc with h1 | h1
      · subst h1; exact hhd
      · rcases List.mem_cons.mp h1 with h2 | h2
        · subst h2; omega
        · exact ih u c (List.mem_cons_of_mem _ h2)

theorem argmaxCount_first (eps : List Color) (us : List Color) :
    ∀ u : Color, (u :: us).Pairwise colorLe →
      ∀ c ∈ u :: us,
        eps.count c = eps.count (argmaxCount eps u us) →
          colorLe (argmaxCount eps u us) c := by
  induction us with
  | nil =>
    intro u _ c hc _
    simp only [List.mem_singleton] at hc
    subst hc
    exact colorLe_refl _
  | cons z zs ih =>
    intro u hs c hc hcnt
    rcases List.pairwise_cons.mp hs with ⟨hu, hzs⟩
    rcases List.pairwise_cons.mp hzs with ⟨hz, hzz⟩
    have harg : argmaxCount eps u (z :: zs) =
        argmaxCount eps (if eps.count u < eps.count z then z else u) zs := rfl
    rw [harg] at hcnt ⊢
    by_cases hcmp : eps.count u < eps.count z
    · rw [if_pos hcmp] at hcnt ⊢
      have hhd := argmaxCount_max eps z zs z (List.mem_cons_self _ _)
      rcases List.mem_cons.mp hc with h1 | h1
      · subst h1; exfalso; omega
      · rcases List.mem_cons.mp h1 with h2 | h2
        · rw [h2] at hcnt ⊢; exact ih z hzs z (List.mem_cons_self _ _) hcnt
        · exact ih z hzs c (List.mem_cons_of_mem _ h2) hcnt
    · rw [if_neg hcmp] at hcnt ⊢
      have hstep : (u :: zs).Pairwise colorLe :=
        List.pairwise_cons.mpr ⟨fun y hy => hu y (List.mem_cons_of_mem _ hy), hzz⟩
      have hhd := argmaxCount_max eps u zs u (List.mem_cons_self _ _)
      rcases List.mem_cons.mp hc with h1 | h1
      · rw [h1] at hcnt ⊢; exact ih u hstep u (List.mem_cons_self _ _) hcnt
      · rcases List.mem_cons.mp h1 with h2 | h2
        · rw [h2] at hcnt ⊢
          have hucnt : eps.count u = eps.count (argmaxCount eps u zs) := by omega
          have hru := ih u hstep u (List.mem_cons_self _ _) hucnt
          exact colorLe_trans hru (hu z (List.mem_cons_self _ _))
        · exact ih u hstep c (List.mem_cons_of_mem _ h2) hcnt

/-- A 2×2 cell whose left column is `(255,0,0)` and right column is
`(0,0,255)`: both colors occur exactly four times among the border
pixels, so they tie for the highest frequency. -/
def cexCell : Img := ⟨2, 2, fun _ x => if x = 0 then (255, 0, 0) else (0, 0, 255)⟩

/-- Counterexample to C1's tie-break rule: on `cexCell` the two border
colors tie, the first color encountered in the claimed scan order
(top edge first) is `(255,0,0)`, yet the code returns the
lexicographically smaller `(0,0,255)` because `np.unique` sorts the
distinct colors before `np.argmax` picks the first maximal count. -/
theorem sampler_tiebreak_cex :
    get_dominant_background_color cexCell = (0, 0, 255) ∧
    specScanSampler cexCell = some (255, 0, 0) ∧
    get_dominant_background_color cexCell ≠ (255, 0, 0) := by
  refine ⟨by decide, by decide, by decide⟩

/-- C1 (amended): for every non-empty cell the sampler returns a border
color of maximal frequency among the border pixels (top row, bottom
row, left column, right column, corners counted twice); when several
colors tie for the highest frequency it returns the lexicographically
smallest of them (channels compared in storage order), not the first
one in border scan order. -/
theorem sampler_max_lex (img : Img) (hh : 0 < img.h) (hw : 0 < img.w) :
    get_dominant_background_color img ∈ edge_pixels img ∧
    (∀ c ∈ edge_pixels img,
      (edge_pixels img).count c ≤
        (edge_pixels img).count (get_dominant_background_color img)) ∧
    (∀ c ∈ edge_pixels img,
      (edge_pixels img).count c =
          (edge_pixels img).count (get_dominant_background_color img) →
        colorLe (get_dominant_background_color img) c) := by
  have hne : img.pix 0 0 ∈ edge_pixels img := by
    unfold edge_pixels
    refine List.mem_append.mpr (Or.inl (List.mem_append.mpr (Or.inl
      (List.mem_append.mpr (Or.inl ?_)))))
    exact List.mem_map.mpr ⟨0, List.mem_range.mpr hw, rfl⟩
  have hmem : ∀ x : Color,
      x ∈ List.insertionSort colorLe (edge_pixels img).dedup ↔
        x ∈ edge_pixels img := by
    intro x
    rw [(List.perm_insertionSort colorLe (edge_pixels img).dedup).mem_iff,
      List.mem_dedup]
  cases hsort : List.insertionSort colorLe (edge_pixels img).dedup with
  | nil =>
    exfalso
    have hx := (hmem (img.pix 0 0)).mpr hne
    rw [hsort] at hx
    exact absurd hx (List.not_mem_nil _)
  | cons u us =>
    have hdom : get_dominant_background_color img =
        argmaxCount (edge_pixels img) u us := by
      unfold get_dominant_background_color
      rw [hsort]
    have hsorted : (u :: us).Pairwise colorLe := by
      have hs := List.sorted_insertionSort colorLe (edge_pixels img).dedup
      rw [hsort] at hs
      exact hs
    rw [hdom]
    have hback : ∀ c ∈ edge_pixels img, c ∈ u :: us := by
      intro c hc
      have hx := (hmem c).mpr hc
      rw [hsort] at hx
      exact hx
    refine ⟨?_, fun c hc => ?_, fun c hc => ?_⟩
    · have hm := argmaxCount_mem (edge_pixels img) u us
      have hx := (hmem _).mp (by rw [hsort]; exact hm)
      exact hx
    · exact argmaxCount_max _ _ _ c (hback c hc)
    · exact argmaxCount_first _ _ u hsorted c (hback c hc)

/-- A 1×1 cell with the single pixel `(5,6,7)`. -/
def unitCell : Img := ⟨1, 1, fun _ _ => (5, 6, 7)⟩

/-- Witness for C1's amended theorem on the concrete cell `unitCell`. -/
theorem sampler_max_lex_witness :
    (0 < unitCell.h ∧ 0 < unitCell.w) ∧
    (get_dominant_background_color unitCell ∈ edge_pixels unitCell ∧
     (∀ c ∈ edge_pixels unitCell,
       (edge_pixels unitCell).count c ≤
         (edge_pixels unitCell).count (get_dominant_background_color unitCell)) ∧
     (∀ c ∈ edge_pixels unitCell,
       (edge_pixels unitCell).count c =
           (edge_pixels unitCell).count (get_dominant_background_color unitCell) →
         colorLe (get_dominant_background_color unitCell) c)) :=
  ⟨⟨by decide, by decide⟩, sampler_max_lex unitCell (by decide) (by decide)⟩

/-! ## The grid scan of `separate_sprite_sheet` -/

/-- The frame at grid position `(r, c)`:
`sprite_sheet[y:y+frame_height, x:x+frame_width]` with
`frame_width = width // grid_cols` and
`frame_height = height // grid_rows`.  For every grid position
`y + frame_height ≤ height` and `x + frame_width ≤ width`, so the numpy
slice has exactly these dimensions. -/
def frameAt (sheet : Img) (rows cols r c : Nat) : Img :=
  { h := sheet.h / rows
    w := sheet.w / cols
    pix := fun y x =>
      sheet.pix (r * (sheet.h / rows) + y) (c * (sheet.w / cols) + x) }

/-- Grid positions in scan order:
`for row in range(grid_rows): for col in range(grid_cols)`. -/
def scanCells (rows cols : Nat) : List (Nat × Nat) :=
  (List.range rows).flatMap fun r => (List.range cols).map fun c => (r, c)

/-- `frame.size` of the extracted slice (three channels). -/
def frameSize (sheet : Img) (rows cols : Nat) : Nat :=
  (sheet.h / rows) * (sheet.w / cols) * 3

/-- The label the scan loop computes for the cell at `rc`: classify the
dominant background color of the extracted frame. -/
def cellLabel (sheet : Img) (rows cols : Nat) (rc : Nat × Nat) : String :=
  classify_movement_by_color
    (get_dominant_background_color (frameAt sheet rows cols rc.1 rc.2))

/-- The scan loop's classified cells in scan order: cells whose frame
has `size == 0` are skipped (`continue`), every other cell is
classified from the dominant color of its frame's border. -/
def classifiedCells (sheet : Img) (rows cols : Nat) :
    List ((Nat × Nat) × String) :=
  ((scanCells rows cols).filter fun _ => frameSize sheet rows cols != 0).map
    fun rc => (rc, cellLabel sheet rows cols rc)

/-- `movements[movement].append(...)` on a Python dict that keeps keys
in insertion order: append to the entry if the key exists, otherwise
add a new key at the end. -/
def dictAppend (acc : List (String × List α)) (lab : String) (x : α) :
    List (String × List α) :=
  match acc with
  | [] => [(lab, [x])]
  | (l, xs) :: rest =>
    if l = lab then (l, xs ++ [x]) :: rest
    else (l, xs) :: dictAppend rest lab x

/-- Lookup in the movements dictionary: the first entry with the key,
`[]` when the key is absent. -/
def dictGet (acc : List (String × List α)) (lab : String) : List α :=
  match acc with
  | [] => []
  | (l, xs) :: rest => if l = lab then xs else dictGet rest lab

/-- The `movements` dictionary built by the scan loop. -/
def movements (sheet : Img) (rows cols : Nat) :
    List (String × List (Nat × Nat)) :=
  (classifiedCells sheet rows cols).foldl
    (fun acc it => dictAppend acc it.2 it.1) []

/-- The number of grid cells whose extracted frame has size 0. -/
def zeroAreaCells (sheet : Img) (rows cols : Nat) : Nat :=
  ((scanCells rows cols).filter fun _ => frameSize sheet rows cols == 0).length

/-- The Python exceptions the grid arithmetic of
`separate_sprite_sheet` can raise, together with the `InvalidGridError`
the specification postulates (nothing in the repository defines or
raises it). -/
inductive PyError where
  | zeroDivisionError
  | invalidGridError
deriving DecidableEq

/-- The grid-scan stage of `separate_sprite_sheet`:
`width // grid_cols` raises `ZeroDivisionError` when `grid_cols` is 0,
then `height // grid_rows` likewise; otherwise the scan completes and
yields the movements dictionary, silently skipping every cell whose
frame has size 0. -/
def separate_sprite_sheet (sheet : Img) (rows cols : Nat) :
    Except PyError (List (String × List (Nat × Nat))) :=
  if cols = 0 then .error .zeroDivisionError
  else if rows = 0 then .error .zeroDivisionError
  else .ok (movements sheet rows cols)

/-- An output artifact written by the save loop. -/
inductive OutputFile where
  | frame (movement : String) (cell : Nat × Nat)
  | combined (movement : String)
deriving DecidableEq

/-- The save loop of `separate_sprite_sheet`: each movement's frames
are written individually, and a combined sheet is written only when the
movement has more than one frame (`if len(frames) > 1`); the
`if not frames: continue` guard skips empty groups. -/
def save_outputs (groups : List (String × List (Nat × Nat))) :
    List OutputFile :=
  groups.flatMap fun mv =>
    if mv.2 = [] then []
    else mv.2.map (OutputFile.frame mv.1) ++
      (if 1 < mv.2.length then [OutputFile.combined mv.1] else [])

/-! ### Dictionary lemmas -/

theorem dictGet_dictAppend {α : Type} (acc : List (String × List α))
    (lab lab' : String) (x : α) :
    dictGet (dictAppend acc lab x) lab' =
      if lab' = lab then dictGet acc lab ++ [x] else dictGet acc lab' := by
  induction acc with
  | nil =>
    by_cases h : lab' = lab
    · simp [dictAppend, dictGet, h]
    · simp [dictAppend, dictGet, h, Ne.symm h]
  | cons hd rest ih =>
    obtain ⟨l, xs⟩ := hd
    by_cases h1 : l = lab
    · subst h1
      by_cases h2 : lab' = l
      · subst h2
        simp [dictAppend, dictGet]
      · simp [dictAppend, dictGet, h2, Ne.symm h2]
    · by_cases h2 : l = lab'
      · subst h2
        simp [dictAppend, dictGet, h1, Ne.symm h1]
      · simp [dictAppend, dictGet, h1, h2, ih]

theorem keys_dictAppend {α : Type} (acc : List (String × List α))
    (lab : String) (x : α) :
    (dictAppend acc lab x).map Prod.fst =
      if lab ∈ acc.map Prod.fst then acc.map Prod.fst
      else acc.map Prod.fst ++ [lab] := by
  induction acc with
  | nil => simp [dictAppend]
  | cons hd rest ih =>
    obtain ⟨l, xs⟩ := hd
    by_cases h : l = lab
    · subst h; simp [dictAppend]
    · simp [dictAppend, h, ih, Ne.symm h]
      by_cases h2 : lab ∈ rest.map Prod.fst <;> simp [h2, Ne.symm h]

theorem dictAppend_vals_ne_nil {α : Type} (acc : List (String × List α))
    (lab : String) (x : α) (h : ∀ e ∈ acc, e.2 ≠ []) :
    ∀ e ∈ dictAppend acc lab x, e.2 ≠ [] := by
  induction acc with
  | nil =>
    intro e he
    simp only [dictAppend, List.mem_singleton] at he
    subst he; simp
  | cons hd rest ih =>
    obtain ⟨l, xs⟩ := hd
    intro e he
    by_cases hl : l = lab
    · subst hl
      simp only [dictAppend, if_pos rfl] at he
      rcases List.mem_cons.mp he with h1 | h1
      · subst h1; simp
      · exact h e (List.mem_cons_of_mem _ h1)
    · simp only [dictAppend, if_neg hl] at he
      rcases List.mem_cons.mp he with h1 | h1
      · subst h1; exact h (l, xs) (List.mem_cons_self _ _)
      · exact ih (fun e' he' => h e' (List.mem_cons_of_mem _ he')) e h1

theorem sum_dictAppend {α : Type} (acc : List (String × List α))
    (lab : String) (x : α) :
    ((dictAppend acc lab x).map fun e => e.2.length).sum =
      ((acc.map fun e => e.2.length)).sum + 1 := by
  induction acc with
  | nil => simp [dictAppend]
  | cons hd rest ih =>
    obtain ⟨l, xs⟩ := hd
    by_cases h : l = lab
    · subst h; simp [dictAppend]; omega
    · simp [dictAppend, h, ih]; omega

theorem mem_of_dictGet {α : Type} (acc : List (String × List α)) (lab : String)
    (h : lab ∈ acc.map Prod.fst) : (lab, dictGet acc lab) ∈ acc := by
  induction acc with
  | nil => simp at h
  | cons hd rest ih =>
    obtain ⟨l, xs⟩ := hd
    by_cases h1 : l = lab
    · subst h1
      simp [dictGet]
    · have h2 : lab ∈ rest.map Prod.fst := by
        simp only [List.map_cons, List.mem_cons] at h
        rcases h with h | h
        · exact absurd h.symm h1
        · exact h
      have := ih h2
      simp [dictGet, h1, this]

theorem dictGet_of_mem {α : Type} (acc : List (String × List α))
    (hnd : (acc.map Prod.fst).Nodup) (e : String × List α) (he : e ∈ acc) :
    dictGet acc e.1 = e.2 := by
  induction acc with
  | nil => simp at he
  | cons hd rest ih =>
    obtain ⟨l, xs⟩ := hd
    rcases List.mem_cons.mp he with h1 | h1
    · subst h1; simp [dictGet]
    · have hkey : e.1 ∈ rest.map Prod.fst :=
        List.mem_map.mpr ⟨e, h1, rfl⟩
      have hne : l ≠ e.1 := by
        intro hx
        rw [List.map_cons, List.nodup_cons] at hnd
        exact hnd.1 (hx ▸ hkey)
      rw [List.map_cons, List.nodup_cons] at hnd
      simp [dictGet, hne]
      exact ih hnd.2 h1

/-- The scan loop's dictionary fold from an arbitrary starting
dictionary. -/
def groupFold {α : Type} (items : List (α × String))
    (acc : List (String × List α)) : List (String × List α) :=
  items.foldl (fun acc it => dictAppend acc it.2 it.1) acc

theorem dictGet_groupFold {α : Type} (items : List (α × String))
    (acc : List (String × List α)) (lab : String) :
    dictGet (groupFold items acc) lab =
      dictGet acc lab ++
        ((items.filter fun it => it.2 == lab).map fun it => it.1) := by
  induction items generalizing acc with
  | nil => simp [groupFold]
  | cons it rest ih =>
    have hstep : groupFold (it :: rest) acc =
        groupFold rest (dictAppend acc it.2 it.1) := rfl
    rw [hstep, ih, dictGet_dictAppend]
    by_cases h : lab = it.2
    · rw [if_pos h]
      have hb : (it.2 == lab) = true := by simp [h]
      simp [List.filter_cons, hb, h]
    · rw [if_neg h]
      have hb : (it.2 == lab) = false := by simp [Ne.symm h]
      simp [List.filter_cons, hb]

theorem keys_nodup_groupFold {α : Type} (items : List (α × String))
    (acc : List (String × List α)) (hnd : (acc.map Prod.fst).Nodup) :
    ((groupFold items acc).map Prod.fst).Nodup := by
  induction items generalizing acc with
  | nil => exact hnd
  | cons it rest ih =>
    apply ih
    rw [keys_dictAppend]
    by_cases h : it.2 ∈ acc.map Prod.fst
    · rwa [if_pos h]
    · rw [if_neg h]
      refine List.Nodup.append hnd (List.nodup_singleton _) ?_
      intro x hx hx'
      rw [List.mem_singleton] at hx'
      exact h (hx' ▸ hx)

theorem vals_ne_nil_groupFold {α : Type} (items : List (α × String))
    (acc : List (String × List α)) (h : ∀ e ∈ acc, e.2 ≠ []) :
    ∀ e ∈ groupFold items acc, e.2 ≠ [] := by
  induction items generalizing acc with
  | nil => exact h
  | cons it rest ih => exact ih _ (dictAppend_vals_ne_nil acc it.2 it.1 h)

theorem sum_groupFold {α : Type} (items : List (α × String))
    (acc : List (String × List α)) :
    ((groupFold items acc).map fun e => e.2.length).sum =
      ((acc.map fun e => e.2.length)).sum + items.length := by
  induction items generalizing acc with
  | nil => simp [groupFold]
  | cons it rest ih =>
    have hstep : groupFold (it :: rest) acc =
        groupFold rest (dictAppend acc it.2 it.1) := rfl
    rw [hstep, ih, sum_dictAppend]
    simp
    omega

theorem mem_keys_groupFold {α : Type} (items : List (α × String))
    (acc : List (String × List α)) (lab : String) :
    lab ∈ (groupFold items acc).map Prod.fst ↔
      lab ∈ acc.map Prod.fst ∨ lab ∈ items.map (fun it => it.2) := by
  induction items generalizing acc with
  | nil => simp [groupFold]
  | cons it rest ih =>
    have hstep : groupFold (it :: rest) acc =
        groupFold rest (dictAppend acc it.2 it.1) := rfl
    rw [hstep, ih, keys_dictAppend]
    by_cases h : it.2 ∈ acc.map Prod.fst
    · rw [if_pos h]
      simp only [List.map_cons, List.mem_cons]
      constructor
      · rintro (hx | hx)
        · exact Or.inl hx
        · exact Or.inr (Or.inr hx)
      · rintro (hx | hx | hx)
        · exact Or.inl hx
        · exact Or.inl (hx.symm ▸ h)
        · exact Or.inr hx
    · rw [if_neg h]
      simp only [List.map_cons, List.mem_cons, List.mem_append,
        List.mem_singleton, List.not_mem_nil, or_false]
      constructor
      · rintro ((hx | hx) | hx)
        · exact Or.inl hx
        · exact Or.inr (Or.inl hx)
        · exact Or.inr (Or.inr hx)
      · rintro (hx | hx | hx)
        · exact Or.inl (Or.inl hx)
        · exact Or.inl (Or.inr hx)
        · exact Or.inr hx

/-! ### Scan-order facts -/

theorem scanCells_eq_range (rows cols : Nat) :
    scanCells rows cols =
      (List.range (rows * cols)).map fun i => (i / cols, i % cols) := by
  induction rows with
  | zero => simp [scanCells]
  | succ n ih =>
    have hstep : scanCells (n + 1) cols =
        scanCells n cols ++ ((List.range cols).map fun c => (n, c)) := by
      unfold scanCells
      rw [List.range_succ, List.flatMap_append]
      simp
    rw [hstep, ih, Nat.succ_mul, List.range_add, List.map_append,
      List.map_map]
    congr 1
    refine List.map_congr_left ?_
    intro c hc
    rw [List.mem_range] at hc
    simp only [Function.comp_apply]
    congr 1
    · rw [Nat.mul_comm, Nat.mul_add_div (by omega : 0 < cols),
        Nat.div_eq_of_lt hc, Nat.add_zero]
    · rw [Nat.mul_comm, Nat.mul_add_mod, Nat.mod_eq_of_lt hc]

theorem scanCells_length (rows cols : Nat) :
    (scanCells rows cols).length = rows * cols := by
  rw [scanCells_eq_range, List.length_map, List.length_range]

theorem scanCells_nodup (rows cols : Nat) : (scanCells rows cols).Nodup := by
  rw [scanCells_eq_range]
  refine List.Nodup.map_on ?_ (List.nodup_range _)
  intro i hi j hj hij
  have h1 : i / cols = j / cols := congrArg Prod.fst hij
  have h2 : i % cols = j % cols := congrArg Prod.snd hij
  have hi' := Nat.div_add_mod i cols
  have hj' := Nat.div_add_mod j cols
  rw [h1, h2] at hi'
  omega

theorem classifiedCells_length (sheet : Img) (rows cols : Nat) :
    (classifiedCells sheet rows cols).length =
      rows * cols - zeroAreaCells sheet rows cols := by
  unfold classifiedCells zeroAreaCells
  rw [List.length_map]
  by_cases hf : frameSize sheet rows cols = 0
  · have h1 : (frameSize sheet rows cols != 0) = false := by simp [hf]
    have h2 : (frameSize sheet rows cols == 0) = true := by simp [hf]
    rw [h1, h2]
    simp [scanCells_length]
  · have h1 : (frameSize sheet rows cols != 0) = true := by simp [hf]
    have h2 : (frameSize sheet rows cols == 0) = false := by simp [hf]
    rw [h1, h2]
    simp [scanCells_length]

theorem movements_keys_nodup (sheet : Img) (rows cols : Nat) :
    ((movements sheet rows cols).map Prod.fst).Nodup :=
  keys_nodup_groupFold _ _ (by simp)

theorem movements_vals_ne_nil (sheet : Img) (rows cols : Nat) :
    ∀ e ∈ movements sheet rows cols, e.2 ≠ [] :=
  vals_ne_nil_groupFold _ _ (by simp)

theorem movements_val_eq (sheet : Img) (rows cols : Nat)
    (e : String × List (Nat × Nat)) (he : e ∈ movements sheet rows cols) :
    e.2 = ((classifiedCells sheet rows cols).filter
      fun it => it.2 == e.1).map fun it => it.1 := by
  have h1 : dictGet (movements sheet rows cols) e.1 = e.2 :=
    dictGet_of_mem _ (movements_keys_nodup sheet rows cols) e he
  have h2 := dictGet_groupFold (classifiedCells sheet rows cols) [] e.1
  rw [show movements sheet rows cols =
    groupFold (classifiedCells sheet rows cols) [] from rfl] at h1
  rw [h2] at h1
  simpa using h1.symm

theorem mem_classifiedCells (sheet : Img) (rows cols : Nat)
    (it : (Nat × Nat) × String) :
    it ∈ classifiedCells sheet rows cols ↔
      it.1 ∈ (scanCells rows cols).filter
        (fun _ => frameSize sheet rows cols != 0) ∧
      it.2 = cellLabel sheet rows cols it.1 := by
  unfold classifiedCells
  rw [List.mem_map]
  constructor
  · rintro ⟨x, hx, rfl⟩
    exact ⟨hx, rfl⟩
  · rintro ⟨h1, h2⟩
    refine ⟨it.1, h1, ?_⟩
    rw [← h2]

theorem classifiedCells_map_fst (sheet : Img) (rows cols : Nat) :
    (classifiedCells sheet rows cols).map (fun it => it.1) =
      (scanCells rows cols).filter
        (fun _ => frameSize sheet rows cols != 0) := by
  unfold classifiedCells
  rw [List.map_map]
  exact List.map_id' _

/-- A 2×2 all-black sheet, smaller than a 5×5 grid. -/
def tinySheet : Img := ⟨2, 2, fun _ _ => (0, 0, 0)⟩

/-- Counterexample to C4: on a 2×2 sheet with a 5×5 grid the computed
cell width `2 // 5` is 0, yet the run raises no error at all — it
completes silently, skipping every cell and producing no groups. -/
theorem invalid_grid_cex :
    tinySheet.w / 5 = 0 ∧
    separate_sprite_sheet tinySheet 5 5 = Except.ok [] :=
  ⟨rfl, rfl⟩

/-- C4 (amended): the code never raises an `InvalidGridError` (no such
error exists in the repository).  `rows = 0` or `cols = 0` raises
`ZeroDivisionError` from the `//` computing the frame size, and a sheet
smaller than the grid (computed cell width or height 0) makes the run
complete silently with every cell skipped and no group produced. -/
theorem invalid_grid_behavior (sheet : Img) (rows cols : Nat) :
    separate_sprite_sheet sheet rows cols ≠
      Except.error PyError.invalidGridError ∧
    (rows = 0 ∨ cols = 0 →
      separate_sprite_sheet sheet rows cols =
        Except.error PyError.zeroDivisionError) ∧
    (rows ≠ 0 → cols ≠ 0 → (sheet.h / rows = 0 ∨ sheet.w / cols = 0) →
      separate_sprite_sheet sheet rows cols = Except.ok []) := by
  refine ⟨?_, ?_, ?_⟩
  · unfold separate_sprite_sheet
    split_ifs <;> simp
  · intro h
    unfold separate_sprite_sheet
    by_cases hc : cols = 0
    · rw [if_pos hc]
    · rw [if_neg hc, if_pos (by tauto)]
  · intro hr hc hz
    have hfs : frameSize sheet rows cols = 0 := by
      unfold frameSize
      rcases hz with h | h <;> rw [h] <;> simp
    have hb : (frameSize sheet rows cols != 0) = false := by simp [hfs]
    have hmv : movements sheet rows cols = [] := by
      unfold movements classifiedCells
      rw [hb]
      simp
    unfold separate_sprite_sheet
    rw [if_neg hc, if_neg hr, hmv]

/-- Witness for C4's amended theorem: `rows = 0` raises
`ZeroDivisionError`; a 5×5 grid on the 2×2 sheet returns `ok []`. -/
theorem invalid_grid_behavior_witness :
    ((0 : Nat) = 0 ∨ (3 : Nat) = 0) ∧
    separate_sprite_sheet tinySheet 0 3 =
      Except.error PyError.zeroDivisionError ∧
    ((5 : Nat) ≠ 0 ∧ (tinySheet.h / 5 = 0 ∨ tinySheet.w / 5 = 0)) ∧
    separate_sprite_sheet tinySheet 5 5 = Except.ok [] :=
  ⟨Or.inl rfl, (invalid_grid_behavior tinySheet 0 3).2.1 (Or.inl rfl),
   ⟨by decide, Or.inl (by decide)⟩,
   (invalid_grid_behavior tinySheet 5 5).2.2 (by decide) (by decide)
     (Or.inl (by decide))⟩

/-- C5: in a run over a `rows × cols` grid, no emitted movement group
is empty, the group sizes sum to `rows*cols` minus the number of
zero-area cells, each group lists exactly the scan-order cells carrying
its label (hence ascending scan order, each cell at most once), and
every nonzero-area cell lands under exactly one label. -/
theorem scan_partition (sheet : Img) (rows cols : Nat)
    (hrows : rows ≠ 0) (hcols : cols ≠ 0) :
    (∀ e ∈ movements sheet rows cols, e.2 ≠ []) ∧
    ((movements sheet rows cols).map fun e => e.2.length).sum
        = rows * cols - zeroAreaCells sheet rows cols ∧
    (∀ e ∈ movements sheet rows cols,
      e.2 = ((classifiedCells sheet rows cols).filter
        fun it => it.2 == e.1).map fun it => it.1) ∧
    (∀ e ∈ movements sheet rows cols, e.2.Nodup) ∧
    (∀ rc ∈ scanCells rows cols, frameSize sheet rows cols ≠ 0 →
      ∃! lab : String, ∃ e ∈ movements sheet rows cols,
        e.1 = lab ∧ rc ∈ e.2) := by
  refine ⟨movements_vals_ne_nil sheet rows cols, ?_,
    movements_val_eq sheet rows cols, ?_, ?_⟩
  · rw [show movements sheet rows cols =
      groupFold (classifiedCells sheet rows cols) [] from rfl,
      sum_groupFold]
    simp [classifiedCells_length]
  · intro e he
    rw [movements_val_eq sheet rows cols e he]
    have hsub : List.Sublist
        ((classifiedCells sheet rows cols).filter fun it => it.2 == e.1)
        (classifiedCells sheet rows cols) :=
      List.filter_sublist _
    have hsubm := hsub.map (fun it => it.1)
    have hnd : ((classifiedCells sheet rows cols).map
        fun it => it.1).Nodup := by
      rw [classifiedCells_map_fst]
      exact (scanCells_nodup rows cols).filter _
    exact List.Nodup.sublist hsubm hnd
  · intro rc hrc hnz
    have hfil : rc ∈ (scanCells rows cols).filter
        (fun _ => frameSize sheet rows cols != 0) := by
      rw [List.mem_filter]
      exact ⟨hrc, by simp [hnz]⟩
    have hitem : (rc, cellLabel sheet rows cols rc) ∈
        classifiedCells sheet rows cols := by
      rw [mem_classifiedCells]
      exact ⟨hfil, rfl⟩
    have hkey : cellLabel sheet rows cols rc ∈
        (movements sheet rows cols).map Prod.fst := by
      rw [show movements sheet rows cols =
        groupFold (classifiedCells sheet rows cols) [] from rfl,
        mem_keys_groupFold]
      right
      exact List.mem_map.mpr ⟨(rc, cellLabel sheet rows cols rc), hitem, rfl⟩
    refine ⟨cellLabel sheet rows cols rc, ?_, ?_⟩
    · refine ⟨(cellLabel sheet rows cols rc,
        dictGet (movements sheet rows cols) (cellLabel sheet rows cols rc)),
        mem_of_dictGet _ _ hkey, rfl, ?_⟩
      show rc ∈ dictGet (movements sheet rows cols) (cellLabel sheet rows cols rc)
      rw [show movements sheet rows cols =
        groupFold (classifiedCells sheet rows cols) [] from rfl,
        dictGet_groupFold]
      rw [show dictGet ([] : List (String × List (Nat × Nat)))
        (cellLabel sheet rows cols rc) = [] from rfl, List.nil_append]
      refine List.mem_map.mpr ⟨(rc, cellLabel sheet rows cols rc), ?_, rfl⟩
      rw [List.mem_filter]
      exact ⟨hitem, by simp⟩
    · rintro lab' ⟨e, he, rfl, hrc'⟩
      have hval := movements_val_eq sheet rows cols e he
      rw [hval] at hrc'
      obtain ⟨it, hit, hfst⟩ := List.mem_map.mp hrc'
      rw [List.mem_filter] at hit
      obtain ⟨hit1, hit2⟩ := hit
      rw [mem_classifiedCells] at hit1
      have hbeq : it.2 = e.1 := by simpa using hit2
      rw [← hbeq, hit1.2, hfst]

/-- A 1×2 sheet whose both cells have a blue background. -/
def twoBlueSheet : Img := ⟨1, 2, fun _ _ => (255, 0, 0)⟩

/-- Witness for C5's theorem on the concrete 1×2 run. -/
theorem scan_partition_witness :
    ((1 : Nat) ≠ 0 ∧ (2 : Nat) ≠ 0) ∧
    ((∀ e ∈ movements twoBlueSheet 1 2, e.2 ≠ []) ∧
     ((movements twoBlueSheet 1 2).map fun e => e.2.length).sum
         = 1 * 2 - zeroAreaCells twoBlueSheet 1 2 ∧
     (∀ e ∈ movements twoBlueSheet 1 2,
       e.2 = ((classifiedCells twoBlueSheet 1 2).filter
         fun it => it.2 == e.1).map fun it => it.1) ∧
     (∀ e ∈ movements twoBlueSheet 1 2, e.2.Nodup) ∧
     (∀ rc ∈ scanCells 1 2, frameSize twoBlueSheet 1 2 ≠ 0 →
       ∃! lab : String, ∃ e ∈ movements twoBlueSheet 1 2,
         e.1 = lab ∧ rc ∈ e.2)) :=
  ⟨⟨by decide, by decide⟩,
   scan_partition twoBlueSheet 1 2 (by decide) (by decide)⟩

/-- C10: the save loop writes a combined sheet for a movement group
exactly when the group has at least two members; every member's
individual frame is written, so a singleton group gets its frame saved
but no composite. -/
theorem combined_iff_two_members (sheet : Img) (rows cols : Nat)
    (mv : String) (frames : List (Nat × Nat))
    (hmem : (mv, frames) ∈ movements sheet rows cols) :
    (OutputFile.combined mv ∈ save_outputs (movements sheet rows cols) ↔
      2 ≤ frames.length) ∧
    ∀ rc ∈ frames,
      OutputFile.frame mv rc ∈ save_outputs (movements sheet rows cols) := by
  have hne : frames ≠ [] :=
    movements_vals_ne_nil sheet rows cols (mv, frames) hmem
  constructor
  · constructor
    · intro hout
      unfold save_outputs at hout
      rw [List.mem_flatMap] at hout
      obtain ⟨e, he, hin⟩ := hout
      by_cases hz : e.2 = []
      · rw [if_pos hz] at hin
        simp at hin
      · rw [if_neg hz, List.mem_append] at hin
        rcases hin with hin | hin
        · obtain ⟨x, _, hx2⟩ := List.mem_map.mp hin
          cases hx2
        · by_cases hl : 1 < e.2.length
          · rw [if_pos hl, List.mem_singleton] at hin
            injection hin with hmv
            have h1 := dictGet_of_mem _
              (movements_keys_nodup sheet rows cols) (mv, frames) hmem
            have h2 := dictGet_of_mem _
              (movements_keys_nodup sheet rows cols) e he
            rw [← hmv] at h2
            rw [h1] at h2
            rw [← h2] at hl
            have hfl : 1 < frames.length := by simpa using hl
            omega
          · rw [if_neg hl] at hin
            simp at hin
    · intro hlen
      unfold save_outputs
      rw [List.mem_flatMap]
      refine ⟨(mv, frames), hmem, ?_⟩
      dsimp only
      rw [if_neg hne, List.mem_append]
      right
      rw [if_pos (by omega), List.mem_singleton]
  · intro rc hrc
    unfold save_outputs
    rw [List.mem_flatMap]
    refine ⟨(mv, frames), hmem, ?_⟩
    dsimp only
    rw [if_neg hne, List.mem_append]
    left
    exact List.mem_map.mpr ⟨rc, hrc, rfl⟩

/-- Witness for C10's theorem on the concrete 1×2 run whose single
group `"idle"` has two members. -/
theorem combined_iff_two_members_witness :
    (("idle", [((0 : Nat), (0 : Nat)), (0, 1)]) ∈ movements twoBlueSheet 1 2) ∧
    ((OutputFile.combined "idle" ∈ save_outputs (movements twoBlueSheet 1 2) ↔
       2 ≤ [((0 : Nat), (0 : Nat)), (0, 1)].length) ∧
     ∀ rc ∈ [((0 : Nat), (0 : Nat)), (0, 1)],
       OutputFile.frame "idle" rc ∈ save_outputs (movements twoBlueSheet 1 2)) :=
  ⟨by decide,
   combined_iff_two_members twoBlueSheet 1 2 "idle" [(0, 0), (0, 1)] (by decide)⟩

/-! ## The combined sheet built for a movement group -/

/-- The fill color of `np.zeros((h, w, 3), dtype=np.uint8)`: black. -/
def fillColor : Color := (0, 0, 0)

/-- `np.zeros((combined_height, combined_width, 3))`. -/
def zerosBuf (h w : Nat) : Img := ⟨h, w, fun _ _ => fillColor⟩

/-- The numpy assignment
`combined_sheet[:frame.shape[0], x_offset:x_offset+frame_width] = frame`. -/
def paintFrame (buf : Img) (f : Img) (xOff : Nat) : Img :=
  ⟨buf.h, buf.w, fun y x =>
    if y < f.h ∧ xOff ≤ x ∧ x < xOff + f.w then f.pix y (x - xOff)
    else buf.pix y x⟩

/-- The `for frame, _ in frames` paint loop with its running
`x_offset`. -/
def paintAll (frames : List Img) (buf : Img) (xOff : Nat) : Img :=
  match frames with
  | [] => buf
  | f :: rest => paintAll rest (paintFrame buf f xOff) (xOff + f.w)

/-- The combined sheet `separate_sprite_sheet` builds for a movement:
width the sum of the frame widths, height the maximum frame height,
frames painted left to right starting at `x_offset = 0` onto a zeroed
buffer. -/
def combined_sheet (frames : List Img) : Img :=
  paintAll frames
    (zerosBuf ((frames.map Img.h).foldl max 0) ((frames.map Img.w).sum)) 0

/-- The horizontal offset of member `i` of a group: the total width of
the members before it. -/
def memberOffset (frames : List Img) (i : Nat) : Nat :=
  ((frames.take i).map Img.w).sum

theorem paintAll_h (frames : List Img) (buf : Img) (xOff : Nat) :
    (paintAll frames buf xOff).h = buf.h := by
  induction frames generalizing buf xOff with
  | nil => rfl
  | cons f rest ih => rw [paintAll, ih]; rfl

theorem paintAll_w (frames : List Img) (buf : Img) (xOff : Nat) :
    (paintAll frames buf xOff).w = buf.w := by
  induction frames generalizing buf xOff with
  | nil => rfl
  | cons f rest ih => rw [paintAll, ih]; rfl

theorem paintAll_pix_left (frames : List Img) (buf : Img) (xOff : Nat)
    (y x : Nat) (hx : x < xOff) :
    (paintAll frames buf xOff).pix y x = buf.pix y x := by
  induction frames generalizing buf xOff with
  | nil => rfl
  | cons f rest ih =>
    rw [paintAll, ih _ _ (by omega)]
    unfold paintFrame
    dsimp only
    rw [if_neg (by omega)]

theorem paintAll_pix_in (frames : List Img) (i : Nat)
    (hi : i < frames.length) (buf : Img) (xOff y x : Nat)
    (hx : x < (frames.get ⟨i, hi⟩).w) :
    (paintAll frames buf xOff).pix y (xOff + memberOffset frames i + x) =
      if y < (frames.get ⟨i, hi⟩).h then (frames.get ⟨i, hi⟩).pix y x
      else buf.pix y (xOff + memberOffset frames i + x) := by
  induction frames generalizing i buf xOff with
  | nil => simp at hi
  | cons f rest ih =>
    cases i with
    | zero =>
      have hget0 : (f :: rest).get ⟨0, hi⟩ = f := rfl
      rw [hget0] at hx ⊢
      have hoff : memberOffset (f :: rest) 0 = 0 := rfl
      rw [hoff, paintAll,
        paintAll_pix_left rest _ _ y _ (by omega)]
      show (if y < f.h ∧ xOff ≤ xOff + 0 + x ∧ xOff + 0 + x < xOff + f.w
          then f.pix y (xOff + 0 + x - xOff)
          else buf.pix y (xOff + 0 + x)) = _
      by_cases hy : y < f.h
      · rw [if_pos ⟨hy, by omega, by omega⟩, if_pos hy]
        congr 1
        omega
      · rw [if_neg (fun hcon => hy hcon.1), if_neg hy]
    | succ j =>
      have hj : j < rest.length := by simp at hi; omega
      have hoff : memberOffset (f :: rest) (j + 1) =
          f.w + memberOffset rest j := by
        simp [memberOffset, List.take_succ_cons]
      rw [paintAll]
      have hidx : xOff + memberOffset (f :: rest) (j + 1) + x =
          (xOff + f.w) + memberOffset rest j + x := by
        rw [hoff]; omega
      rw [hidx]
      have hget : (f :: rest).get ⟨j + 1, hi⟩ = rest.get ⟨j, hj⟩ := rfl
      rw [hget] at hx ⊢
      rw [ih j hj (paintFrame buf f xOff) (xOff + f.w) hx]
      by_cases hy : y < (rest.get ⟨j, hj⟩).h
      · rw [if_pos hy, if_pos hy]
      · rw [if_neg hy, if_neg hy]
        unfold paintFrame
        dsimp only
        rw [if_neg (by intro hcon; omega)]

/-- C6: for a composited group, the combined buffer's width is the sum
of the members' widths, its height is the maximum member height, member
`i` occupies the columns starting at the sum of the previous widths
with its own pixels (left-to-right concatenation, no gaps, top
aligned), and below a shorter member the remaining rows hold the fill
color, black. -/
theorem combined_sheet_spec (frames : List Img) (hlen : 1 < frames.length)
    (i : Nat) (hi : i < frames.length) :
    (combined_sheet frames).w = (frames.map Img.w).sum ∧
    (combined_sheet frames).h = (frames.map Img.h).foldl max 0 ∧
    ∀ y x, x < (frames.get ⟨i, hi⟩).w →
      (y < (frames.get ⟨i, hi⟩).h →
        (combined_sheet frames).pix y (memberOffset frames i + x) =
          (frames.get ⟨i, hi⟩).pix y x) ∧
      ((frames.get ⟨i, hi⟩).h ≤ y → y < (combined_sheet frames).h →
        (combined_sheet frames).pix y (memberOffset frames i + x) =
          fillColor) := by
  refine ⟨?_, ?_, ?_⟩
  · unfold combined_sheet
    rw [paintAll_w]
    rfl
  · unfold combined_sheet
    rw [paintAll_h]
    rfl
  · intro y x hx
    have hp := paintAll_pix_in frames i hi
      (zerosBuf ((frames.map Img.h).foldl max 0) ((frames.map Img.w).sum))
      0 y x hx
    rw [Nat.zero_add] at hp
    constructor
    · intro hy
      unfold combined_sheet
      rw [hp, if_pos hy]
    · intro hy _
      unfold combined_sheet
      rw [hp, if_neg (by omega)]
      rfl

/-- A 32-tall strip. -/
def stripA : Img := ⟨32, 1, fun _ _ => (1, 1, 1)⟩

/-- A 40-tall strip. -/
def stripB : Img := ⟨40, 1, fun _ _ => (2, 2, 2)⟩

/-- Another 32-tall strip. -/
def stripC : Img := ⟨32, 1, fun _ _ => (3, 3, 3)⟩

/-- Witness for C6's theorem: the 32/40/32 scenario at member 2. -/
theorem combined_sheet_spec_witness :
    (1 < [stripA, stripB, stripC].length ∧
     2 < [stripA, stripB, stripC].length) ∧
    ((combined_sheet [stripA, stripB, stripC]).w =
        ([stripA, stripB, stripC].map Img.w).sum ∧
     (combined_sheet [stripA, stripB, stripC]).h =
        ([stripA, stripB, stripC].map Img.h).foldl max 0 ∧
     ∀ y x, x < stripC.w →
       (y < stripC.h →
         (combined_sheet [stripA, stripB, stripC]).pix y
             (memberOffset [stripA, stripB, stripC] 2 + x) =
           stripC.pix y x) ∧
       (stripC.h ≤ y → y < (combined_sheet [stripA, stripB, stripC]).h →
         (combined_sheet [stripA, stripB, stripC]).pix y
             (memberOffset [stripA, stripB, stripC] 2 + x) =
           fillColor)) :=
  ⟨⟨by decide, by decide⟩,
   combined_sheet_spec [stripA, stripB, stripC] (by decide) 2 (by decide)⟩

/-! ## `slice_sprite_sheet` (the grid partitioner of
`slice_sprite_sheet.py`) -/

/-- A crop box `(left, top, right, bottom)` as passed to
`Image.crop`. -/
structure CropBox where
  left : Nat
  top : Nat
  right : Nat
  bottom : Nat
deriving DecidableEq

/-- `slice_sprite_sheet`: `tile_width = sheet_width // cols`,
`tile_height = sheet_height // rows`, and for each grid position in
scan order the crop box
`(col*tile_width, row*tile_height, left+tile_width, top+tile_height)`. -/
def slice_sprite_sheet (sheetW sheetH rows cols : Nat) :
    List ((Nat × Nat) × CropBox) :=
  (List.range rows).flatMap fun r => (List.range cols).map fun c =>
    ((r, c),
     ⟨c * (sheetW / cols), r * (sheetH / rows),
      c * (sheetW / cols) + sheetW / cols,
      r * (sheetH / rows) + sheetH / rows⟩)

theorem mem_scanCells (rows cols : Nat) (rc : Nat × Nat) :
    rc ∈ scanCells rows cols ↔ rc.1 < rows ∧ rc.2 < cols := by
  unfold scanCells
  rw [List.mem_flatMap]
  constructor
  · rintro ⟨r, hr, hmem⟩
    obtain ⟨c, hc, rfl⟩ := List.mem_map.mp hmem
    rw [List.mem_range] at hr
    rw [List.mem_range] at hc
    exact ⟨hr, hc⟩
  · rintro ⟨h1, h2⟩
    refine ⟨rc.1, List.mem_range.mpr h1,
      List.mem_map.mpr ⟨rc.2, List.mem_range.mpr h2, Prod.mk.eta⟩⟩

theorem slice_eq_scan (sheetW sheetH rows cols : Nat) :
    slice_sprite_sheet sheetW sheetH rows cols =
      (scanCells rows cols).map fun rc =>
        (rc, ⟨rc.2 * (sheetW / cols), rc.1 * (sheetH / rows),
              rc.2 * (sheetW / cols) + sheetW / cols,
              rc.1 * (sheetH / rows) + sheetH / rows⟩) := by
  unfold slice_sprite_sheet scanCells
  rw [List.map_flatMap]
  congr 1
  funext r
  rw [List.map_map]
  rfl

/-- C7: for `rows, cols ≥ 1` on a sheet at least `cols` wide and `rows`
tall, the partitioner produces exactly `rows*cols` cells in row-major
order, each `sheetW/cols` wide and `sheetH/rows` tall by integer
division, and the cells cover every pixel left of `cols*(sheetW/cols)`
and above `rows*(sheetH/rows)`, leaving at most `cols-1` pixel columns
at the right and `rows-1` pixel rows at the bottom uncovered. -/
theorem slice_grid_spec (sheetW sheetH rows cols : Nat)
    (hr : 1 ≤ rows) (hc : 1 ≤ cols) (hw : cols ≤ sheetW)
    (hh2 : rows ≤ sheetH) :
    (slice_sprite_sheet sheetW sheetH rows cols).length = rows * cols ∧
    slice_sprite_sheet sheetW sheetH rows cols =
      (List.range (rows * cols)).map (fun i =>
        ((i / cols, i % cols),
         ⟨(i % cols) * (sheetW / cols), (i / cols) * (sheetH / rows),
          (i % cols) * (sheetW / cols) + sheetW / cols,
          (i / cols) * (sheetH / rows) + sheetH / rows⟩)) ∧
    (∀ e ∈ slice_sprite_sheet sheetW sheetH rows cols,
      e.2.right - e.2.left = sheetW / cols ∧
      e.2.bottom - e.2.top = sheetH / rows) ∧
    (∀ x y, x < cols * (sheetW / cols) → y < rows * (sheetH / rows) →
      ∃ e ∈ slice_sprite_sheet sheetW sheetH rows cols,
        e.2.left ≤ x ∧ x < e.2.right ∧ e.2.top ≤ y ∧ y < e.2.bottom) ∧
    sheetW - cols * (sheetW / cols) ≤ cols - 1 ∧
    sheetH - rows * (sheetH / rows) ≤ rows - 1 := by
  refine ⟨?_, ?_, ?_, ?_, ?_, ?_⟩
  · rw [slice_eq_scan, List.length_map, scanCells_length]
  · rw [slice_eq_scan, scanCells_eq_range, List.map_map]
    rfl
  · intro e he
    rw [slice_eq_scan] at he
    obtain ⟨rc, _, rfl⟩ := List.mem_map.mp he
    constructor <;> dsimp only <;> exact Nat.add_sub_cancel_left _ _
  · intro x y hx hy
    have htw : 0 < sheetW / cols := Nat.div_pos hw (by omega)
    have hth : 0 < sheetH / rows := Nat.div_pos hh2 (by omega)
    refine ⟨((y / (sheetH / rows), x / (sheetW / cols)),
      ⟨(x / (sheetW / cols)) * (sheetW / cols),
       (y / (sheetH / rows)) * (sheetH / rows),
       (x / (sheetW / cols)) * (sheetW / cols) + sheetW / cols,
       (y / (sheetH / rows)) * (sheetH / rows) + sheetH / rows⟩),
      ?_, ?_, ?_, ?_, ?_⟩
    · rw [slice_eq_scan]
      refine List.mem_map.mpr
        ⟨(y / (sheetH / rows), x / (sheetW / cols)), ?_, rfl⟩
      rw [mem_scanCells]
      exact ⟨(Nat.div_lt_iff_lt_mul hth).mpr hy,
        (Nat.div_lt_iff_lt_mul htw).mpr hx⟩
    · exact Nat.div_mul_le_self x _
    · show x < (x / (sheetW / cols)) * (sheetW / cols) + sheetW / cols
      exact Nat.lt_div_mul_add htw
    · exact Nat.div_mul_le_self y _
    · show y < (y / (sheetH / rows)) * (sheetH / rows) + sheetH / rows
      exact Nat.lt_div_mul_add hth
  · have h1 := Nat.div_add_mod sheetW cols
    have h2 : sheetW % cols < cols := Nat.mod_lt _ (by omega)
    omega
  · have h1 := Nat.div_add_mod sheetH rows
    have h2 : sheetH % rows < rows := Nat.mod_lt _ (by omega)
    omega

/-- Witness for C7's theorem on a 4×2 sheet with a 2×2 grid. -/
theorem slice_grid_spec_witness :
    ((1 : Nat) ≤ 2 ∧ (2 : Nat) ≤ 4) ∧
    ((slice_sprite_sheet 4 2 2 2).length = 2 * 2 ∧
     slice_sprite_sheet 4 2 2 2 =
       (List.range (2 * 2)).map (fun i =>
         ((i / 2, i % 2),
          ⟨(i % 2) * (4 / 2), (i / 2) * (2 / 2),
           (i % 2) * (4 / 2) + 4 / 2,
           (i / 2) * (2 / 2) + 2 / 2⟩)) ∧
     (∀ e ∈ slice_sprite_sheet 4 2 2 2,
       e.2.right - e.2.left = 4 / 2 ∧ e.2.bottom - e.2.top = 2 / 2) ∧
     (∀ x y, x < 2 * (4 / 2) → y < 2 * (2 / 2) →
       ∃ e ∈ slice_sprite_sheet 4 2 2 2,
         e.2.left ≤ x ∧ x < e.2.right ∧ e.2.top ≤ y ∧ y < e.2.bottom) ∧
     4 - 2 * (4 / 2) ≤ 2 - 1 ∧ 2 - 2 * (2 / 2) ≤ 2 - 1) :=
  ⟨⟨by decide, by decide⟩,
   slice_grid_spec 4 2 2 2 (by decide) (by decide) (by decide) (by decide)⟩
